import Mathlib

/-!
# LayerFS — verification of the natural-language specification against the code

Shallow embedding of `src/LayerFS.py` (a FUSE copy-on-write overlay filesystem).

Representation choices, documented once here:

* A *partial* path (client-visible, always starting with `/`) is represented as
  its list of components: `/` is `[]`, `/a/b` is `["a", "b"]`.  The source's
  string functions act on this representation as follows: `os.path.dirname`
  drops the last component (`dirname("/a/b") = "/a"`, `dirname("/") = "/"`),
  `os.path.basename` takes the last component, and `LayerFS.join(root, tail)`
  (which strips leading slashes of `tail` and trailing slashes of the result)
  is list append.  Host paths are likewise component lists: `real_path(P)` is
  `root ++ P` and `fake_path(P)` is `fakeRoot ++ P`.
* The Python `set` held in `self.shadow` is a finite set of partials, given
  as the list of its elements; every definition uses it only through
  membership, except `ls_dir`, which iterates it (Python iterates the set).
* Host-filesystem primitives (`os.listdir`, `os.path.exists`, …) are fields of
  an explicit host-state structure, or booleans passed in, as each operation
  needs; fallible Python code returns `Except`.
* The shadow *persistence* layer (`load_shadow` / `add_to_shadow`), whose
  claims are about the raw text of `U/shadow`, is additionally modelled at the
  character level (`List Char`) with newline handling identical to Python's
  `str.split('\n')`.
-/

namespace LayerFS

/-- A partial path as a list of components; `[]` is the root `/`. -/
abbrev Partl := List String

/-- `os.path.dirname` on a normalized partial: drop the last component
(`dirname("/") = "/"`). -/
def dirname (p : Partl) : Partl := p.dropLast

/-- `os.path.basename` on a component-list path: its last component
(`""` for the root, which never arises in the uses below). -/
def basename (p : Partl) : String := p.getLastD ""

/-- Boolean prefix test on component lists (used to state ancestor facts;
`pfxB a b = true` iff `a` is an ancestor-or-self of `b`). -/
def pfxB : Partl → Partl → Bool
  | [], _ => true
  | _ :: _, [] => false
  | a :: as, b :: bs => a = b && pfxB as bs

/-- Fuelled body of `test_use_fake`.  `dirname` strictly shortens a non-root
partial, so `p.length` steps always reach the root: running with fuel
`p.length` is exactly the source's recursion, made structural so that it
evaluates inside the kernel.  (When the fuel runs out `p` is `[]`, and the
branch order of the source is preserved: membership is tested before the
root check.) -/
def tufGo (S : List Partl) : Partl → Nat → Bool
  | p, 0 => if p ∈ S then true else false
  | p, fuel + 1 =>
      if p ∈ S then true
      else if p = [] then false
      else tufGo S p.dropLast fuel

/-- `LayerFS.test_use_fake`: `partial in self.shadow` → true;
`partial == '/'` → false; otherwise recurse on `os.path.dirname(partial)`.
Decides whether the real or the fake path should be used. -/
def test_use_fake (S : List Partl) (p : Partl) : Bool :=
  tufGo S p p.length

/-- The (immutable) lower host tree: a regular file with an abstract content
token, or a directory with named children. -/
inductive FTree where
  | leaf (content : Nat)
  | dir (children : List (String × FTree))

/-- Static configuration of the mount: the lower root, the upper (`fake_root`)
root, and the content of the (immutable) lower tree. -/
structure Cfg where
  root : Partl
  fakeRoot : Partl
  lower : FTree

/-- `LayerFS.real_path(partial)`: `join(self.root, partial)`. -/
def realPath (C : Cfg) (p : Partl) : Partl := C.root ++ p

/-- `LayerFS.fake_path(partial)`: `join(self.fake_root, partial)`. -/
def fakePath (C : Cfg) (p : Partl) : Partl := C.fakeRoot ++ p

/-- `LayerFS.path(partial, force_fake=False)` — the read-only resolution,
which never mutates state: the fake path when `test_use_fake`, else the real
path. -/
def path_ro (C : Cfg) (S : List Partl) (p : Partl) : Partl :=
  if test_use_fake S p then fakePath C p else realPath C p

mutual

/-- Looking a relative component path up in a lower tree
(`os.path.exists` / `os.path.isdir` on the lower side are derived from it). -/
def lookupT : FTree → List String → Option FTree
  | t, [] => some t
  | .leaf _, _ :: _ => none
  | .dir cs, n :: rest => lookupL cs n rest

/-- Helper for `lookupT`: scan a children list for the named entry. -/
def lookupL : List (String × FTree) → String → List String → Option FTree
  | [], _, _ => none
  | c :: cs, n, rest => if c.1 = n then lookupT c.2 rest else lookupL cs n rest

end

/-- FUSE error codes raised via `FuseOSError` (plus pass-through OS errors,
kept abstract). -/
inductive Errno where
  | ENOENT
  | ENOTDIR
  | EACCES
  | EMLINK
  | osErr (code : Nat)
deriving DecidableEq

/-- The host filesystem as seen by the read-only operations: which host paths
exist, which are directories, and directory listings.  (`os.path.exists`,
`os.path.isdir`, `os.listdir`.) -/
structure Host where
  hexists : Partl → Bool
  isDir : Partl → Bool
  listdir : Partl → List String

/-- A host directory's listing is coherent with existence: a name is listed
exactly when the corresponding child host path exists.  (The property of real
`os.listdir` / `os.path.exists` that the merge proof rests on.) -/
def listsChildren (H : Host) (d : Partl) : Prop :=
  ∀ n : String, n ∈ H.listdir d ↔ H.hexists (d ++ [n]) = true

/-- `LayerFS.ls_dir(partial)`: directory entries of `partial`, without `.` and
`..`.  Fake branch: plain `os.listdir`.  Real branch: validate, resolve each
real child read-only, add the fake paths of shadow members whose dirname is
`partial`, keep those that exist, take basenames, deduplicate
(`list(set(ret))`). -/
def ls_dir (C : Cfg) (S : List Partl) (H : Host) (p : Partl) :
    Except Errno (List String) :=
  let fake_path := fakePath C p
  let path := path_ro C S p
  if fake_path = path then
    .ok (H.listdir path)
  else if ¬ (H.hexists path = true) then
    .error .ENOENT
  else if ¬ (H.isDir path = true) then
    .error .ENOTDIR
  else
    let real_partials := (H.listdir path).map (fun i => p ++ [i])
    let real_files := real_partials.map (fun i => path_ro C S i)
    let fake_files := (S.filter (fun i => dirname i = p)).map (fakePath C)
    let ret := ((real_files ++ fake_files).filter (fun i => H.hexists i)).map basename
    .ok ret.dedup

/-- `LayerFS.readdir(partial, fh)`: yield `.`, `..`, then the entries of
`ls_dir` (a `FuseOSError` from `ls_dir` propagates). -/
def readdir_fn (C : Cfg) (S : List Partl) (H : Host) (p : Partl) :
    Except Errno (List String) :=
  (ls_dir C S H p).map (fun dirents => "." :: ".." :: dirents)

mutual

/-- The set of descendant partials that `shutil.copytree(real_path(q), …,
ignore=self.ignore_fake, dirs_exist_ok=True)` copies when promoting the
directory partial `q` whose lower subtree is `t`: a child is skipped exactly
when `ignore_fake` lists it, i.e. when `test_use_fake` holds of its partial,
and skipped children are not descended into. -/
def copiedIn (S : List Partl) (q : Partl) : FTree → List Partl
  | .leaf _ => []
  | .dir cs => copiedList S q cs

/-- Children loop of `copiedIn` (the `ignore=` filter of `copytree` applied to
one directory's children). -/
def copiedList (S : List Partl) (q : Partl) : List (String × FTree) → List Partl
  | [] => []
  | c :: cs =>
      (if test_use_fake S (q ++ [c.1]) then []
       else (q ++ [c.1]) :: copiedIn S (q ++ [c.1]) c.2) ++ copiedList S q cs

end

/-- `LayerFS.ignore_fake(d, children)`: the children of the host directory `d`
(whose partial, `d` with the root prefix stripped, is `prepend`) that
`copytree` must ignore — those whose partial `test_use_fake` already routes to
the fake side. -/
def ignore_fake (S : List Partl) (prepend : Partl) (children : List String) :
    List String :=
  children.filter (fun i => test_use_fake S (prepend ++ [i]))

/-- No member of `S` lies on the path from `q` (exclusive) down to `x`
(inclusive): the condition under which the recursive copy of a promotion
rooted at `q` reaches the descendant `x`. -/
def noBlock (S : List Partl) (q x : Partl) : Prop :=
  ∀ z ∈ S, ¬ (pfxB q z = true ∧ z ≠ q ∧ pfxB z x = true)

mutual

/-- All strict descendant partials of `q` present in the lower subtree `t`
(what an ignore-free `copytree` would copy). -/
def descIn (q : Partl) : FTree → List Partl
  | .leaf _ => []
  | .dir cs => descList q cs

/-- Children loop of `descIn`. -/
def descList (q : Partl) : List (String × FTree) → List Partl
  | [] => []
  | c :: cs => ((q ++ [c.1]) :: descIn (q ++ [c.1]) c.2) ++ descList q cs

end

/-- `set.add` of Python: insert an element into a membership-list, keeping it
a set (no-op when already present). -/
def pyAdd (S : List Partl) (p : Partl) : List Partl :=
  if p ∈ S then S else p :: S

/-- The mutable state of the mount that path resolution touches: the in-memory
shadow set `self.shadow`, the log of lines appended to `U/shadow` (one partial
per `add_to_shadow` call), and the set of partials materialized under
`fake_root` (the upper tree). -/
structure St where
  shadow : List Partl
  shadowLog : List Partl
  upper : List Partl

/-- The observable side effects performed during one `LayerFS.path` call, in
program order.  `hostMkdirParents`, `hostCopyTree` and `hostCopyFile` are
host-side mutations of the upper tree; `shadowAdd` is the shadow-set insert
(with its append to `U/shadow`). -/
inductive PEv where
  | hostMkdirParents (d : Partl)
  | hostCopyTree (src dst : Partl)
  | hostCopyFile (src dst : Partl)
  | shadowAdd (p : Partl)
deriving DecidableEq

/-- Is the event a host-side mutation of the upper tree (anything but the
shadow-set insert)? -/
def isHostMut : PEv → Bool
  | .shadowAdd _ => false
  | _ => true

/-- `LayerFS.add_to_shadow(partial)` at the level of the `St` model:
`self.shadow.add(partial)` plus the append of one line to `U/shadow`. -/
def add_to_shadow_st (st : St) (p : Partl) : St :=
  { st with shadow := pyAdd st.shadow p, shadowLog := st.shadowLog ++ [p] }

/-- `LayerFS.path(partial, force_fake)` with its state effects and event
trace.  When `use_fake` is false and `force_fake` is true: create the fake
parents (`Path(dirname(path)).mkdir(parents=True, exist_ok=True)` — all proper
prefixes of `partial` become upper directories), copy the real path if it
exists (`copytree` with `ignore=self.ignore_fake` for a directory, `copy2`
for a file), then `add_to_shadow(partial)`, and return the fake path.
Otherwise no state changes: return fake or real path per `use_fake`. -/
def path_st (C : Cfg) (st : St) (p : Partl) (force_fake : Bool) :
    Partl × St × List PEv :=
  let use_fake := test_use_fake st.shadow p
  if use_fake = false ∧ force_fake = true then
    let pth := fakePath C p
    let st1 : St := { st with upper := st.upper ++ p.dropLast.inits }
    let ev1 := [PEv.hostMkdirParents (dirname pth)]
    match lookupT C.lower p with
    | some (.dir cs) =>
        let st2 : St :=
          { st1 with upper := st1.upper ++ (p :: copiedIn st.shadow p (.dir cs)) }
        (pth, add_to_shadow_st st2 p,
          ev1 ++ [PEv.hostCopyTree (realPath C p) pth, PEv.shadowAdd p])
    | some (.leaf _) =>
        let st2 : St := { st1 with upper := st1.upper ++ [p] }
        (pth, add_to_shadow_st st2 p,
          ev1 ++ [PEv.hostCopyFile (realPath C p) pth, PEv.shadowAdd p])
    | none =>
        (pth, add_to_shadow_st st1 p, ev1 ++ [PEv.shadowAdd p])
  else
    ((if use_fake then fakePath C p else realPath C p), st, [])

/-- Python exceptions that escape the operations (beside `FuseOSError`). -/
inductive PyErr where
  | nameError
  | typeError
  | attributeError
  | keyError
  | ioError
deriving DecidableEq

instance {e a : Type} [DecidableEq e] [DecidableEq a] :
    DecidableEq (Except e a) := fun x y =>
  match x, y with
  | .ok u, .ok v => decidable_of_iff (u = v) (by simp)
  | .ok _, .error _ => isFalse (fun hc => Except.noConfusion hc)
  | .error _, .ok _ => isFalse (fun hc => Except.noConfusion hc)
  | .error u, .error v => decidable_of_iff (u = v) (by simp)

/-- `LayerFS.chown(partial, uid, gid)`.  The source reads

    partial = self.path(partial, force_fake=True)
    os.chown(path, uid, gid)

the resolved path is bound to the local name `partial`, and `os.chown` is then
applied to the name `path`, which is not defined anywhere in scope — so after
the resolution (whose promotion side effects do happen) the call always raises
`NameError`. -/
def chown_op (C : Cfg) (st : St) (p : Partl) (_uid _gid : Nat) :
    Except PyErr Unit × St :=
  let r := path_st C st p true
  (.error .nameError, r.2.1)

/-- `LayerFS.mkdir(partial, mode)`: resolve with `force_fake=True`, then
`os.mkdir` on the resolved path.  The outcome of the bare OS primitive is
passed in as `osRes`; on success the new directory materializes in upper, on
failure the exception propagates and nothing is rolled back. -/
def mkdir_op (C : Cfg) (st : St) (p : Partl) (_mode : Nat)
    (osRes : Except Errno Unit) : Except Errno Unit × St :=
  let r := path_st C st p true
  let st1 := r.2.1
  match osRes with
  | .ok _ => (.ok (), { st1 with upper := st1.upper ++ [p] })
  | .error e => (.error e, st1)

/-- The FUSE callbacks, as abstract operations carrying just the arguments
that determine their path resolutions. -/
inductive Op where
  | access (p : Partl) (mode : Nat)
  | chmod (p : Partl) (mode : Nat)
  | chown (p : Partl) (uid gid : Nat)
  | getattr (p : Partl)
  | readdir (p : Partl)
  | mknod (p : Partl)
  | rmdir (p : Partl)
  | mkdir (p : Partl)
  | statfs (p : Partl)
  | unlink (p : Partl)
  | rename (pOld pNew : Partl)
  | utimens (p : Partl)
  | openF (p : Partl) (flags : Nat)
  | createF (p : Partl)
  | readF (p : Partl)
  | writeF (p : Partl)
  | truncateF (p : Partl)
  | fsyncF (p : Partl)

/-- `req_write` of `LayerFS.open`: `O_WRONLY, O_RDWR, O_CREAT, O_APPEND,
O_TRUNC, O_EXCL` (Linux values 1, 2, 64, 1024, 512, 128). -/
def req_write : List Nat := [1, 2, 64, 1024, 512, 128]

/-- `write_access` of `LayerFS.open`:
`any([ flags == (flags | i) for i in req_write ])`. -/
def write_access (flags : Nat) : Bool :=
  req_write.any (fun i => flags = flags ||| i)

/-- The `self.path(…, force_fake=…)` calls each dispatcher method performs, in
order — the only way any method touches the shadow set.  (Read-only methods
pass `force_fake=False`; writing methods pass `True`; `open` computes
`write_access` from its flags; `rename` resolves both arguments; `readlink`,
`symlink` and `link` fail without resolving.) -/
def resolves : Op → List (Partl × Bool)
  | .access p _ => [(p, false)]
  | .chmod p _ => [(p, true)]
  | .chown p _ _ => [(p, true)]
  | .getattr p => [(p, false)]
  | .readdir p => [(p, false)]
  | .mknod p => [(p, true)]
  | .rmdir p => [(p, true)]
  | .mkdir p => [(p, true)]
  | .statfs p => [(p, false)]
  | .unlink p => [(p, true)]
  | .rename pOld pNew => [(pOld, true), (pNew, true)]
  | .utimens p => [(p, true)]
  | .openF p flags => [(p, write_access flags)]
  | .createF p => [(p, true)]
  | .readF p => [(p, false)]
  | .writeF p => [(p, true)]
  | .truncateF p => [(p, true)]
  | .fsyncF p => [(p, true)]

/-- Apply one operation's path resolutions to the state. -/
def applyOp (C : Cfg) (st : St) (o : Op) : St :=
  (resolves o).foldl (fun s pr => (path_st C s pr.1 pr.2).2.1) st

/-- Run a sequence of operations from a state. -/
def runOps (C : Cfg) (ops : List Op) (st : St) : St :=
  ops.foldl (applyOp C) st

/-- The state of a freshly created mount: empty shadow set, empty `U/shadow`,
nothing materialized in upper. -/
def initSt : St := ⟨[], [], []⟩

/-- One entry of `self.fd_map`: the namedtuple
`fd_map_t = namedtuple('fd_map_t', ['fd', 'path', 'open_args'])`.
Named tuples are immutable: assigning to a field raises `AttributeError`. -/
structure FdEntry where
  fd : Nat
  path : Partl
  open_args : List Nat
deriving DecidableEq

/-- `self.fd_map`: LayerFS handle → entry. -/
abbrev FdMap := List (Nat × FdEntry)

/-- Dictionary lookup on an association list. -/
def lookupA {α : Type} (l : List (Nat × α)) (k : Nat) : Option α :=
  (l.find? (fun e => e.1 = k)).map (fun e => e.2)

/-- Dictionary update at an existing key. -/
def setA {α : Type} (l : List (Nat × α)) (k : Nat) (v : α) : List (Nat × α) :=
  l.map (fun e => if e.1 = k then (k, v) else e)

/-- Fuelled version of the scan in `add_to_fd_map`
(`fake_fd = 0; while fake_fd in self.fd_map: fake_fd += 1`).  Each increment
consumes a distinct occupied key, of which there are at most `m.length`, so
fuel `m.length + 1` makes the fuelled loop exact. -/
def firstFreeGo (m : FdMap) : Nat → Nat → Nat
  | 0, k => k
  | fuel + 1, k => if (lookupA m k).isSome then firstFreeGo m fuel (k + 1) else k

/-- The smallest handle not in `self.fd_map`. -/
def firstFree (m : FdMap) : Nat := firstFreeGo m (m.length + 1) 0

/-- `LayerFS.add_to_fd_map(self, path, fd, *open_args)`: store
`fd_map_t(fd, path, open_args)` under the smallest free handle and return the
handle.  `open_args` is the varargs tuple — both call sites (`open` and
`create`) pass no extra arguments, so it is always stored empty. -/
def add_to_fd_map (m : FdMap) (pth : Partl) (fd : Nat) (open_args : List Nat) :
    Nat × FdMap :=
  let fake_fd := firstFree m
  (fake_fd, (fake_fd, ⟨fd, pth, open_args⟩) :: m)

/-- `LayerFS.real_fd(fh, path)`.  If the stored path equals the desired path,
return the stored OS fd with the table unchanged.  Otherwise the source runs

    os.close(entry.fd)
    fd = os.open(entry.path, *entry.open_args)
    self.fd_map[fh].fd = fd

With the stored `open_args` empty (as both call sites leave it),
`os.open(entry.path)` is missing its required `flags` argument and raises
`TypeError`; were `open_args` non-empty, `os.open` would succeed but the
assignment to a field of the `fd_map_t` namedtuple raises `AttributeError`.
Either way the mismatch branch never returns.  (A missing handle raises
`KeyError` at the table lookup.) -/
def real_fd (m : FdMap) (fh : Nat) (pth : Partl) : Except PyErr (Nat × FdMap) :=
  match lookupA m fh with
  | none => .error .keyError
  | some entry =>
    if entry.path = pth then .ok (entry.fd, m)
    else
      match entry.open_args with
      | [] => .error .typeError
      | _ :: _ => .error .attributeError

/-- `LayerFS.open(partial, flags)` restricted to the handle table: the
resolved path is `fake_path(partial)` when `test_use_fake` or a write-mode
flag forces promotion, else `real_path(partial)` (`self.path` returns the fake
path in every `force_fake=True` branch); `osfd` is the fd `os.open` returned.
The entry is registered with `add_to_fd_map(path, fd)` — no varargs, so with
empty `open_args`.  (The promotion state effect of a write-mode open on a
lower-backed partial lives in the `path_st` model.) -/
def lfs_open (C : Cfg) (S : List Partl) (m : FdMap) (p : Partl) (flags : Nat)
    (osfd : Nat) : Nat × FdMap :=
  let path :=
    if test_use_fake S p || write_access flags then fakePath C p else realPath C p
  add_to_fd_map m path osfd []

/-- One OS-level open file: its byte content and the fd's current file
position. -/
structure OFile where
  data : List Nat
  pos : Nat
deriving DecidableEq

/-- `os.lseek(fd, off, os.SEEK_SET)`. -/
def os_lseek (f : OFile) (off : Nat) : OFile := { f with pos := off }

/-- `os.write(fd, buf)`: overwrite `buf.length` bytes at the current position
(the positions written are within or directly at the end of the file in the
modeled scenarios), advance the position, return the byte count. -/
def os_write (f : OFile) (buf : List Nat) : OFile × Nat :=
  (⟨f.data.take f.pos ++ buf ++ f.data.drop (f.pos + buf.length),
    f.pos + buf.length⟩,
   buf.length)

/-- `os.read(fd, length)`: up to `length` bytes from the current position,
advancing it. -/
def os_read (f : OFile) (len : Nat) : List Nat × OFile :=
  let out := (f.data.drop f.pos).take len
  (out, { f with pos := f.pos + out.length })

/-- The state the file methods act on: the handle table and the OS open
files, keyed by OS fd. -/
structure FileSt where
  fdmap : FdMap
  ofiles : List (Nat × OFile)
deriving DecidableEq

/-- `LayerFS.write(partial, buf, offset, fh)`:
`path = self.path(partial, force_fake=True)` (which always returns
`fake_path(partial)`; its promotion side effect, absent once the partial is
shadowed, lives in the `path_st` model), `fd = self.real_fd(fh, path)`,
`os.lseek(fd, offset, os.SEEK_SET)`, `os.write(fd, buf)`.  (A dangling OS fd
is model-internal `keyError`; it does not arise below.) -/
def lfs_write (C : Cfg) (st : FileSt) (p : Partl) (buf : List Nat) (off : Nat)
    (fh : Nat) : Except PyErr (Nat × FileSt) :=
  let path := fakePath C p
  match real_fd st.fdmap fh path with
  | .error e => .error e
  | .ok (fd, m') =>
    match lookupA st.ofiles fd with
    | none => .error .keyError
    | some f =>
        let f1 := os_lseek f off
        let r := os_write f1 buf
        .ok (r.2, ⟨m', setA st.ofiles fd r.1⟩)

/-- `LayerFS.read(partial, length, offset, fh)`:
`path = self.path(partial, force_fake=False)`, `fd = self.real_fd(fh, path)`,
`return os.read(fd, length)`.  Note there is no `os.lseek` — the source never
uses the `offset` argument, so the read happens at the fd's current
position. -/
def lfs_read (C : Cfg) (S : List Partl) (st : FileSt) (p : Partl)
    (len _off : Nat) (fh : Nat) : Except PyErr (List Nat × FileSt) :=
  let path := path_ro C S p
  match real_fd st.fdmap fh path with
  | .error e => .error e
  | .ok (fd, m') =>
    match lookupA st.ofiles fd with
    | none => .error .keyError
    | some f =>
        let r := os_read f len
        .ok (r.1, ⟨m', setA st.ofiles fd r.2⟩)

/-- A line of `U/shadow`, as raw characters. -/
abbrev Line := List Char

/-- The state of the shadow persistence layer: the in-memory Python set
`self.shadow` and the raw character content of `U/shadow`. -/
structure ShSt where
  shadowMem : Finset Line
  shadowFile : List Char
deriving DecidableEq

/-- Python's `str.split('\n')` on raw characters: `"" ↦ [""]`,
`"a\nb\n" ↦ ["a", "b", ""]`. -/
def splitNl : List Char → List Line
  | [] => [[]]
  | c :: r =>
      if c = '\n' then [] :: splitNl r
      else
        match splitNl r with
        | [] => [[c]]
        | l :: ls => (c :: l) :: ls

/-- `LayerFS.load_shadow` on the file's content:
`set([ i for i in data.split('\n') if len(i) > 0 ])`. -/
def load_shadow (data : List Char) : Finset Line :=
  ((splitNl data).filter (fun i => 0 < i.length)).toFinset

/-- `LayerFS.add_to_shadow(partial)` at the persistence level.  The source
first runs `self.shadow.add(partial)` and only then opens `U/shadow` for
append and writes `partial + '\n'`; `appendOk` says whether that append
succeeds.  When it fails, the exception propagates with the in-memory set
already mutated and the file unchanged. -/
def add_to_shadow_p (st : ShSt) (p : Line) (appendOk : Bool) :
    Except PyErr Unit × ShSt :=
  let st1 : ShSt := { st with shadowMem := insert p st.shadowMem }
  if appendOk then
    (.ok (), { st1 with shadowFile := st1.shadowFile ++ p ++ ['\n'] })
  else
    (.error .ioError, st1)

/-- Run a sequence of successful `add_to_shadow` calls from the fresh state
(no `U/shadow` file yet: `load_shadow` of a missing file gives the empty
set). -/
def runInserts (ps : List Line) : ShSt :=
  ps.foldl (fun st p => (add_to_shadow_p st p true).2) ⟨∅, []⟩

/-- "The shadow-set insert happens strictly before any host-side mutation" as
a property of an event trace: every non-mutation event (the shadow insert)
precedes every host-side mutation event. -/
def insertBeforeMuts (tr : List PEv) : Prop :=
  ∀ i j, (hi : i < tr.length) → (hj : j < tr.length) →
    isHostMut (tr.get ⟨i, hi⟩) = false → isHostMut (tr.get ⟨j, hj⟩) = true →
    i < j

/-- A small concrete mount used by the closed theorems below: lower root
`/r`, upper storage `/u` (so `fake_root` is `/u/fake_root`), lower tree
containing the file `/f` and the directories `/a/b` with file `/a/b/c`. -/
def sampleCfg : Cfg :=
  ⟨["r"], ["u", "fake_root"],
   .dir [("f", .leaf 3), ("a", .dir [("b", .dir [("c", .leaf 7)])])]⟩

/-!
## Helper lemmas
-/

/-- Unfolding equation of `test_use_fake`: it satisfies the source's
recursion on `dirname`. -/
theorem tuf_unfold (S : List Partl) (p : Partl) :
    test_use_fake S p =
      if p ∈ S then true
      else if p = [] then false
      else test_use_fake S p.dropLast := by
  cases p with
  | nil => simp [test_use_fake, tufGo]
  | cons a as =>
      have hlen : (a :: as).dropLast.length = as.length := by
        simp [List.length_dropLast]
      show tufGo S (a :: as) (as.length + 1) = _
      rw [tufGo, test_use_fake, hlen]

/-- `test_use_fake` at a child partial: the child's own membership, or the
parent's verdict. -/
theorem tuf_snoc (S : List Partl) (p : Partl) (n : String) :
    test_use_fake S (p ++ [n]) =
      if (p ++ [n]) ∈ S then true else test_use_fake S p := by
  rw [tuf_unfold]
  by_cases h : (p ++ [n]) ∈ S <;> simp [h, List.dropLast_concat]

/-- Membership in a Python-set insert. -/
theorem mem_pyAdd (S : List Partl) (p q : Partl) :
    q ∈ pyAdd S p ↔ q = p ∨ q ∈ S := by
  unfold pyAdd
  split <;> rename_i h
  · constructor
    · exact fun hq => Or.inr hq
    · rintro (rfl | hq) <;> [exact h; exact hq]
  · simp [List.mem_cons]

/-- The shadow set after a `path` call: the promotion branch inserts exactly
the resolved partial, all other branches leave it unchanged. -/
theorem path_st_shadow (C : Cfg) (st : St) (p : Partl) (ff : Bool) :
    (path_st C st p ff).2.1.shadow =
      if test_use_fake st.shadow p = false ∧ ff = true then pyAdd st.shadow p
      else st.shadow := by
  by_cases hc : test_use_fake st.shadow p = false ∧ ff = true
  · obtain ⟨h1, h2⟩ := hc
    cases hl : lookupT C.lower p with
    | none => simp [path_st, h1, h2, hl, add_to_shadow_st]
    | some t => cases t <;> simp [path_st, h1, h2, hl, add_to_shadow_st]
  · simp [path_st, hc]

/-- The `U/shadow` log after a `path` call: the promotion branch appends
exactly one line for the resolved partial. -/
theorem path_st_log (C : Cfg) (st : St) (p : Partl) (ff : Bool) :
    (path_st C st p ff).2.1.shadowLog =
      if test_use_fake st.shadow p = false ∧ ff = true then st.shadowLog ++ [p]
      else st.shadowLog := by
  by_cases hc : test_use_fake st.shadow p = false ∧ ff = true
  · obtain ⟨h1, h2⟩ := hc
    cases hl : lookupT C.lower p with
    | none => simp [path_st, h1, h2, hl, add_to_shadow_st]
    | some t => cases t <;> simp [path_st, h1, h2, hl, add_to_shadow_st]
  · simp [path_st, hc]

/-- A partial copied during the promotion of `p` (with `p` itself) is in the
upper tree afterwards. -/
theorem path_st_upper (C : Cfg) (st : St) (p : Partl)
    (h : test_use_fake st.shadow p = false) (t : FTree)
    (hl : lookupT C.lower p = some t) :
    ∀ q ∈ p :: copiedIn st.shadow p t, q ∈ (path_st C st p true).2.1.upper := by
  intro q hq
  cases t with
  | leaf c =>
      simp only [copiedIn, List.mem_cons, List.not_mem_nil, or_false] at hq
      subst hq
      simp [path_st, h, hl, add_to_shadow_st]
  | dir cs =>
      simp only [List.mem_cons] at hq
      simp only [path_st, h, hl, add_to_shadow_st]
      rcases hq with rfl | hq
      · simp [List.mem_append]
      · simp [List.mem_append, hq]

/-- A member of the shadow set after a `path` call was already a member, or is
the resolved partial itself. -/
theorem shadow_mem_path_st (C : Cfg) (st : St) (p : Partl) (ff : Bool)
    (q : Partl) (hq : q ∈ (path_st C st p ff).2.1.shadow) :
    q ∈ st.shadow ∨ q = p := by
  rw [path_st_shadow] at hq
  split at hq
  · rw [mem_pyAdd] at hq
    tauto
  · exact Or.inl hq

/-- The root partial stays out of the shadow set across any chain of path
resolutions none of which resolves the root in write mode. -/
theorem root_not_shadowed_foldl (C : Cfg) (prs : List (Partl × Bool)) (st : St)
    (h0 : ([] : Partl) ∉ st.shadow)
    (h : ∀ pr ∈ prs, pr.1 = [] → pr.2 = false) :
    ([] : Partl) ∉
      (prs.foldl (fun s pr => (path_st C s pr.1 pr.2).2.1) st).shadow := by
  induction prs generalizing st with
  | nil => exact h0
  | cons pr prs ih =>
      refine ih _ ?_ (fun x hx => h x (List.mem_cons_of_mem _ hx))
      intro hmem
      rw [path_st_shadow] at hmem
      split at hmem
      · rename_i hcond
        rw [mem_pyAdd] at hmem
        rcases hmem with heq | hin
        · have hff := h pr (List.mem_cons_self _ _) heq.symm
          rw [hff] at hcond
          exact absurd hcond.2 (by simp)
        · exact h0 hin
      · exact h0 hmem

/-!
## Claim theorems
-/

/-- **C2** (counterexample).  The claim says a failing append to `U/shadow`
leaves the in-memory set exactly as before the call.  In the code,
`self.shadow.add(partial)` runs *before* the append: with the append failing
on a fresh state, the call does fail, yet the in-memory set has gained the
partial. -/
theorem c2_counterexample :
    (add_to_shadow_p ⟨∅, []⟩ ['/', 'a'] false).1 = .error PyErr.ioError ∧
    (add_to_shadow_p ⟨∅, []⟩ ['/', 'a'] false).2.shadowMem ≠ (∅ : Finset Line) := by
  decide

/-- **C2** (amended).  `insert(P)` adds `P` to the in-memory set and *then*
appends `P\n` to `U/shadow`; on success both have happened when it returns,
and when the append fails the error propagates but `P` has already been added
to the in-memory set (the file is unchanged). -/
theorem c2_insert_order (st : ShSt) (p : Line) :
    add_to_shadow_p st p true =
      (.ok (), ⟨insert p st.shadowMem, st.shadowFile ++ p ++ ['\n']⟩) ∧
    add_to_shadow_p st p false =
      (.error .ioError, ⟨insert p st.shadowMem, st.shadowFile⟩) :=
  ⟨rfl, rfl⟩

/-- **C9.**  `chown(P, u, g)` resolves `P` in write mode — the promotion side
effects do happen — but then crashes with `NameError` instead of performing
the OS chown: the resolved path is bound to the local name `partial` while
`os.chown` is applied to the undefined name `path`.  Evaluated at the failing
input `chown("/a", 0, 0)` on a fresh mount: the error is raised and the
promotion of `/a` has taken place. -/
theorem c9_chown_name_error :
    (chown_op sampleCfg initSt ["a"] 0 0).1 = .error PyErr.nameError ∧
    ["a"] ∈ (chown_op sampleCfg initSt ["a"] 0 0).2.shadow ∧
    (chown_op sampleCfg initSt ["a"] 0 0).2.shadowLog = [["a"]] := by
  decide

/-- **C10.**  If the OS primitive invoked after `resolve(P, true)` on a
lower-backed `P` fails (here: `mkdir`), the error propagates but the promotion
is not rolled back: `P` is in the in-memory shadow set, its line was appended
to `U/shadow`, and everything the promotion copied is still in the upper
tree. -/
theorem c10_promotion_not_rolled_back (C : Cfg) (st : St) (p : Partl)
    (mode : Nat) (e : Errno) (h : test_use_fake st.shadow p = false) :
    (mkdir_op C st p mode (.error e)).1 = .error e ∧
    p ∈ (mkdir_op C st p mode (.error e)).2.shadow ∧
    (mkdir_op C st p mode (.error e)).2.shadowLog = st.shadowLog ++ [p] ∧
    ∀ t, lookupT C.lower p = some t →
      ∀ q ∈ p :: copiedIn st.shadow p t,
        q ∈ (mkdir_op C st p mode (.error e)).2.upper := by
  refine ⟨rfl, ?_, ?_, ?_⟩
  · show p ∈ (path_st C st p true).2.1.shadow
    rw [path_st_shadow]
    simp [h, mem_pyAdd]
  · show (path_st C st p true).2.1.shadowLog = st.shadowLog ++ [p]
    rw [path_st_log]
    simp [h]
  · intro t hl q hq
    exact path_st_upper C st p h t hl q hq

/-- **C10** (witness): the failing `mkdir("/a", 0)` on a fresh mount over a
lower tree containing `/a/b/c`. -/
theorem c10_witness :
    test_use_fake initSt.shadow ["a"] = false ∧
    ((mkdir_op sampleCfg initSt ["a"] 0 (.error .EACCES)).1 = .error .EACCES ∧
     ["a"] ∈ (mkdir_op sampleCfg initSt ["a"] 0 (.error .EACCES)).2.shadow ∧
     (mkdir_op sampleCfg initSt ["a"] 0 (.error .EACCES)).2.shadowLog =
       initSt.shadowLog ++ [["a"]] ∧
     ∀ t, lookupT sampleCfg.lower ["a"] = some t →
       ∀ q ∈ ["a"] :: copiedIn initSt.shadow ["a"] t,
         q ∈ (mkdir_op sampleCfg initSt ["a"] 0 (.error .EACCES)).2.upper) :=
  ⟨by decide,
   c10_promotion_not_rolled_back sampleCfg initSt ["a"] 0 .EACCES (by decide)⟩

/-- **C7** (counterexample).  The claim says the shadow-set insert happens
strictly before any host-side mutation of the promotion.  Promoting the
lower-backed file `/f` produces the trace `mkdir parents; copy; shadow
insert`: the insert comes last, after the mutations. -/
theorem c7_counterexample :
    test_use_fake initSt.shadow ["f"] = false ∧
    ¬ insertBeforeMuts (path_st sampleCfg initSt ["f"] true).2.2 := by
  refine ⟨by decide, fun hIB => ?_⟩
  have h := hIB 2 0 (by decide) (by decide) (by decide) (by decide)
  omega

/-- **C7** (amended).  For every promotion triggered by `resolve(P, true)` on
a lower-backed `P`, the shadow-set insert (with its append to `U/shadow`)
happens strictly *after* all host-side mutations performed for that
promotion: the event trace is host mutations followed by the single
`shadowAdd`. -/
theorem c7_insert_after_mutations (C : Cfg) (st : St) (p : Partl)
    (h : test_use_fake st.shadow p = false) :
    ∃ muts, (path_st C st p true).2.2 = muts ++ [PEv.shadowAdd p] ∧
      ∀ e ∈ muts, isHostMut e = true := by
  cases hl : lookupT C.lower p with
  | none =>
      refine ⟨[PEv.hostMkdirParents (dirname (fakePath C p))], ?_, ?_⟩
      · simp [path_st, h, hl]
      · simp [isHostMut]
  | some t =>
      cases t with
      | leaf c =>
          refine ⟨[PEv.hostMkdirParents (dirname (fakePath C p)),
                   PEv.hostCopyFile (realPath C p) (fakePath C p)], ?_, ?_⟩
          · simp [path_st, h, hl]
          · simp [isHostMut]
      | dir cs =>
          refine ⟨[PEv.hostMkdirParents (dirname (fakePath C p)),
                   PEv.hostCopyTree (realPath C p) (fakePath C p)], ?_, ?_⟩
          · simp [path_st, h, hl]
          · simp [isHostMut]

/-- **C7** (witness): promotion of the lower directory `/a` on a fresh
mount. -/
theorem c7_witness :
    test_use_fake initSt.shadow ["a"] = false ∧
    ∃ muts, (path_st sampleCfg initSt ["a"] true).2.2 =
        muts ++ [PEv.shadowAdd ["a"]] ∧
      ∀ e ∈ muts, isHostMut e = true :=
  ⟨by decide, c7_insert_after_mutations sampleCfg initSt ["a"] (by decide)⟩

/-- **C5** (counterexample).  The claim says `/` is never in the shadow set,
for every sequence of operations including those applied to `/` itself.  But
`chmod("/", m)` resolves `/` with `force_fake=True`, which promotes `/` and
inserts it into the shadow set. -/
theorem c5_counterexample :
    ¬ ∀ ops : List Op, ([] : Partl) ∉ (runOps sampleCfg ops initSt).shadow := by
  intro h
  exact h [Op.chmod [] 0] (by decide)

/-- **C5** (amended).  `/` stays out of the shadow set as long as no
operation resolves `/` itself in write mode (e.g. no `chmod`/`chown`/
`utimens`/write-mode `open`/… applied to `/`): starting from any state whose
shadow set lacks `/`, any sequence of such operations keeps `/` out. -/
theorem c5_root_not_shadowed (C : Cfg) (ops : List Op) (st : St)
    (h0 : ([] : Partl) ∉ st.shadow)
    (hops : ∀ o ∈ ops, ∀ pr ∈ resolves o, pr.1 = [] → pr.2 = false) :
    ([] : Partl) ∉ (runOps C ops st).shadow := by
  induction ops generalizing st with
  | nil => exact h0
  | cons o ops ih =>
      refine ih _ ?_ (fun o' ho' => hops o' (List.mem_cons_of_mem _ ho'))
      exact root_not_shadowed_foldl C (resolves o) st h0
        (hops o (List.mem_cons_self _ _))

/-- **C5** (witness): reading the root and writing below it never shadows the
root. -/
theorem c5_witness :
    (([] : Partl) ∉ initSt.shadow) ∧
    (∀ o ∈ [Op.getattr [], Op.readdir [], Op.chmod ["a"] 7, Op.writeF ["f"]],
      ∀ pr ∈ resolves o, pr.1 = [] → pr.2 = false) ∧
    ([] : Partl) ∉
      (runOps sampleCfg [Op.getattr [], Op.readdir [], Op.chmod ["a"] 7,
        Op.writeF ["f"]] initSt).shadow :=
  ⟨by decide, by decide,
   c5_root_not_shadowed sampleCfg _ initSt (by decide) (by decide)⟩

/-- **C3.**  The matching half of the claim holds: with the stored path equal
to the desired path, `real_fd` returns the stored fd and the table is
unchanged.  The re-open half fails on the code: a handle created by
`open("/f", O_RDONLY)` stores the resolved real path and — since `open` and
`create` pass no varargs to `add_to_fd_map` — an empty `open_args`; once `/f`
has been promoted, `read` passes the fake path, the paths differ, and
`os.open(entry.path, *entry.open_args)` is called without its mandatory
`flags` argument: `TypeError`, not a re-opened descriptor (and the subsequent
`self.fd_map[fh].fd = fd` would raise `AttributeError` on the immutable
namedtuple even if flags had been stored). -/
theorem c3_real_fd_crash :
    (lfs_open sampleCfg [] [] ["f"] 0 5).2 =
      [(0, ⟨5, realPath sampleCfg ["f"], []⟩)] ∧
    real_fd [(0, ⟨5, realPath sampleCfg ["f"], []⟩)] 0
        (realPath sampleCfg ["f"]) =
      .ok (5, [(0, ⟨5, realPath sampleCfg ["f"], []⟩)]) ∧
    real_fd [(0, ⟨5, realPath sampleCfg ["f"], []⟩)] 0
        (fakePath sampleCfg ["f"]) =
      .error PyErr.typeError := by
  decide

/-- **C1.**  Write-then-read through one handle on the (already promoted)
file `/f`, open with fd position 0 and empty content: `write(P, [104, 105],
0)` seeks to 0, writes, and leaves the fd position at 2; `read(P, 2, 0)` never
seeks — the source ignores its `offset` argument — so it reads from position
2 and returns `[]`, not the data just written. -/
theorem c1_write_read_bug :
    lfs_write sampleCfg
        ⟨[(0, ⟨3, fakePath sampleCfg ["f"], []⟩)], [(3, ⟨[], 0⟩)]⟩
        ["f"] [104, 105] 0 0 =
      .ok (2, ⟨[(0, ⟨3, fakePath sampleCfg ["f"], []⟩)], [(3, ⟨[104, 105], 2⟩)]⟩) ∧
    (lfs_read sampleCfg [["f"]]
        ⟨[(0, ⟨3, fakePath sampleCfg ["f"], []⟩)], [(3, ⟨[104, 105], 2⟩)]⟩
        ["f"] 2 0 0).map (fun r => r.1) = .ok [] ∧
    ([] : List Nat) ≠ [104, 105] := by
  decide

/-- `str.split('\n')` unfolds one full line at a time. -/
theorem splitNl_line (p : Line) (r : List Char) (hp : '\n' ∉ p) :
    splitNl (p ++ '\n' :: r) = p :: splitNl r := by
  induction p with
  | nil => simp [splitNl]
  | cons c cp ih =>
      have hc : ¬ c = '\n' := fun h => hp (h ▸ List.mem_cons_self c cp)
      have hcp : '\n' ∉ cp := fun h => hp (List.mem_cons_of_mem _ h)
      simp only [List.cons_append, splitNl, hc, if_false, List.append_eq]
      rw [ih hcp]

/-- The `U/shadow` content after a chain of successful inserts is the
starting content followed by one LF-terminated line per insert. -/
theorem inserts_file (ps : List Line) (st : ShSt) :
    (ps.foldl (fun st p => (add_to_shadow_p st p true).2) st).shadowFile =
      st.shadowFile ++ (ps.map (fun p => p ++ ['\n'])).flatten := by
  induction ps generalizing st with
  | nil => simp
  | cons p ps ih =>
      rw [List.foldl_cons, ih]
      simp [add_to_shadow_p, List.append_assoc]

/-- Membership in the in-memory set after a chain of successful inserts. -/
theorem inserts_mem (ps : List Line) (st : ShSt) (q : Line) :
    (q ∈ (ps.foldl (fun st p => (add_to_shadow_p st p true).2) st).shadowMem) ↔
      (q ∈ ps ∨ q ∈ st.shadowMem) := by
  induction ps generalizing st with
  | nil => simp
  | cons p ps ih =>
      rw [List.foldl_cons, ih]
      simp only [add_to_shadow_p, if_pos, Finset.mem_insert, List.mem_cons]
      tauto

/-- Splitting a concatenation of complete, newline-free, nonempty lines gives
back the lines (plus the trailing empty piece after the final LF). -/
theorem splitNl_flatten (ps : List Line)
    (h : ∀ p ∈ ps, 0 < p.length ∧ '\n' ∉ p) :
    splitNl ((ps.map (fun p => p ++ ['\n'])).flatten) = ps ++ [[]] := by
  induction ps with
  | nil => simp [splitNl]
  | cons p ps ih =>
      have hp := h p (List.mem_cons_self _ _)
      have hps : ∀ x ∈ ps, 0 < x.length ∧ '\n' ∉ x :=
        fun x hx => h x (List.mem_cons_of_mem _ hx)
      have hshape : ((p :: ps).map (fun p => p ++ ['\n'])).flatten =
          p ++ '\n' :: (ps.map (fun p => p ++ ['\n'])).flatten := by
        simp
      rw [hshape, splitNl_line p _ hp.2, ih hps]
      simp

/-- **C8.**  A shadow set built by any sequence of `insert(P_i)` calls (each
`P_i` beginning with `/` and containing no newline) survives the round trip
through `U/shadow`: each insert appended one `P\n` line, `load` splits on
newlines and drops empty lines, duplicates collapse in the set — and the
reloaded set is exactly the in-memory one. -/
theorem c8_shadow_round_trip (ps : List Line)
    (h : ∀ p ∈ ps, p.head? = some '/' ∧ '\n' ∉ p) :
    load_shadow (runInserts ps).shadowFile = (runInserts ps).shadowMem := by
  have h' : ∀ p ∈ ps, 0 < p.length ∧ '\n' ∉ p := by
    intro p hp
    obtain ⟨h1, h2⟩ := h p hp
    refine ⟨?_, h2⟩
    cases p with
    | nil => simp at h1
    | cons c cp => simp
  unfold runInserts load_shadow
  rw [inserts_file]
  have hfile :
      (⟨∅, []⟩ : ShSt).shadowFile ++ (ps.map (fun p => p ++ ['\n'])).flatten =
        (ps.map (fun p => p ++ ['\n'])).flatten := by simp
  rw [hfile, splitNl_flatten ps h']
  apply Finset.ext
  intro q
  rw [List.mem_toFinset, inserts_mem]
  constructor
  · intro hq
    have hq' := List.mem_filter.mp hq
    rcases List.mem_append.mp hq'.1 with h1 | h1
    · exact Or.inl h1
    · exfalso
      simp only [List.mem_singleton] at h1
      subst h1
      simpa using hq'.2
  · rintro (hq | hq)
    · refine List.mem_filter.mpr ⟨List.mem_append_left _ hq, ?_⟩
      simpa using (h' q hq).1
    · simp at hq

/-- **C8** (witness): inserting `/a`, `/a`, `/b` and reloading. -/
theorem c8_witness :
    (∀ p ∈ [['/', 'a'], ['/', 'a'], ['/', 'b']],
      List.head? p = some '/' ∧ '\n' ∉ p) ∧
    load_shadow (runInserts [['/', 'a'], ['/', 'a'], ['/', 'b']]).shadowFile =
      (runInserts [['/', 'a'], ['/', 'a'], ['/', 'b']]).shadowMem :=
  ⟨by decide, c8_shadow_round_trip [['/', 'a'], ['/', 'a'], ['/', 'b']] (by decide)⟩

/-- A list is a prefix of itself extended. -/
theorem pfxB_append (a r : Partl) : pfxB a (a ++ r) = true := by
  induction a with
  | nil => rfl
  | cons h a ih => simp [pfxB, ih]

/-- Reflexivity of the prefix test. -/
theorem pfxB_refl (a : Partl) : pfxB a a = true := by
  simpa using pfxB_append a []

/-- A prefix is no longer than the whole. -/
theorem pfxB_length {a b : Partl} (h : pfxB a b = true) :
    a.length ≤ b.length := by
  induction a generalizing b with
  | nil => simp
  | cons x a ih =>
      cases b with
      | nil => simp [pfxB] at h
      | cons y b =>
          simp only [pfxB, Bool.and_eq_true, decide_eq_true_eq] at h
          simpa using ih h.2

/-- A prefix of equal length is the whole. -/
theorem pfxB_eq_of_length {a b : Partl} (h : pfxB a b = true)
    (hl : b.length ≤ a.length) : a = b := by
  induction a generalizing b with
  | nil =>
      cases b with
      | nil => rfl
      | cons y b => simp at hl
  | cons x a ih =>
      cases b with
      | nil => simp [pfxB] at h
      | cons y b =>
          simp only [pfxB, Bool.and_eq_true, decide_eq_true_eq] at h
          simp only [List.length_cons] at hl
          rw [h.1, ih h.2 (by omega)]

/-- Transitivity of the prefix test. -/
theorem pfxB_trans {a b c : Partl} (h1 : pfxB a b = true)
    (h2 : pfxB b c = true) : pfxB a c = true := by
  induction a generalizing b c with
  | nil => rfl
  | cons x a ih =>
      cases b with
      | nil => simp [pfxB] at h1
      | cons y b =>
          cases c with
          | nil => simp [pfxB] at h2
          | cons z c =>
              simp only [pfxB, Bool.and_eq_true, decide_eq_true_eq] at h1 h2 ⊢
              exact ⟨h1.1.trans h2.1, ih h1.2 h2.2⟩

/-- Of two prefixes of the same list, the shorter is a prefix of the
longer. -/
theorem pfxB_of_both {a b x : Partl} (ha : pfxB a x = true)
    (hb : pfxB b x = true) (hl : a.length ≤ b.length) : pfxB a b = true := by
  induction x generalizing a b with
  | nil =>
      cases a with
      | nil => rfl
      | cons _ _ => simp [pfxB] at ha
  | cons y x ih =>
      cases a with
      | nil => rfl
      | cons u a =>
          cases b with
          | nil => simp at hl
          | cons v b =>
              simp only [pfxB, Bool.and_eq_true, decide_eq_true_eq] at ha hb ⊢
              exact ⟨ha.1.trans hb.1.symm, ih ha.2 hb.2 (by simpa using hl)⟩

mutual

/-- A descendant recorded by `descIn` strictly extends the root of the
walk. -/
theorem descIn_pfx (x : Partl) :
    ∀ (q : Partl) (t : FTree), x ∈ descIn q t →
      pfxB q x = true ∧ q.length < x.length
  | q, .leaf _, h => by simp [descIn] at h
  | q, .dir cs, h => descList_pfx x q cs (by rwa [descIn] at h)

/-- Children-loop version of `descIn_pfx`. -/
theorem descList_pfx (x : Partl) :
    ∀ (q : Partl) (cs : List (String × FTree)), x ∈ descList q cs →
      pfxB q x = true ∧ q.length < x.length
  | q, [], h => by simp [descList] at h
  | q, c :: cs, h => by
      rw [descList] at h
      rcases List.mem_append.mp h with h1 | h1
      · rcases List.mem_cons.mp h1 with rfl | h2
        · exact ⟨pfxB_append q [c.1], by simp⟩
        · have hd := descIn_pfx x (q ++ [c.1]) c.2 h2
          refine ⟨pfxB_trans (pfxB_append q [c.1]) hd.1, ?_⟩
          have h3 := hd.2
          simp only [List.length_append, List.length_cons, List.length_nil] at h3
          omega
      · exact descList_pfx x q cs h1

end

mutual

/-- Characterization of the set a promotion's `copytree` copies: a descendant
`x` of the promoted lower directory is copied exactly when it exists under
the lower tree and no shadow-set member lies on the path from the promotion
root (exclusive) down to `x` (inclusive). -/
theorem copied_char_tree (S : List Partl) (x : Partl) :
    ∀ (q : Partl) (t : FTree), test_use_fake S q = false →
      (x ∈ copiedIn S q t ↔ (x ∈ descIn q t ∧ noBlock S q x))
  | q, .leaf c, hq => by simp [copiedIn, descIn]
  | q, .dir cs, hq => by
      rw [copiedIn, descIn]
      exact copied_char_list S x q cs hq

/-- Children-loop version of `copied_char_tree`. -/
theorem copied_char_list (S : List Partl) (x : Partl) :
    ∀ (q : Partl) (cs : List (String × FTree)), test_use_fake S q = false →
      (x ∈ copiedList S q cs ↔ (x ∈ descList q cs ∧ noBlock S q x))
  | q, [], hq => by simp [copiedList, descList]
  | q, c :: cs, hq => by
      have hQne : q ++ [c.1] ≠ q := by
        intro hEq
        simpa using congrArg List.length hEq
      have hQlen : (q ++ [c.1]).length = q.length + 1 := by simp
      by_cases htuf : test_use_fake S (q ++ [c.1]) = true
      · -- the child itself is already routed to the fake side: it is in S
        have hmemS : (q ++ [c.1]) ∈ S := by
          by_contra hmem
          rw [tuf_snoc, if_neg hmem, hq] at htuf
          exact Bool.false_ne_true htuf
        rw [copiedList, if_pos htuf, List.nil_append,
          copied_char_list S x q cs hq, descList]
        constructor
        · rintro ⟨hd, hnb⟩
          exact ⟨List.mem_append_right _ hd, hnb⟩
        · rintro ⟨hd, hnb⟩
          refine ⟨?_, hnb⟩
          rcases List.mem_append.mp hd with h1 | h1
          · exfalso
            rcases List.mem_cons.mp h1 with rfl | h2
            · exact hnb _ hmemS ⟨pfxB_append q [c.1], hQne, pfxB_refl _⟩
            · exact hnb _ hmemS
                ⟨pfxB_append q [c.1], hQne, (descIn_pfx x (q ++ [c.1]) c.2 h2).1⟩
          · exact h1
      · -- the child is still lower-backed: recurse into it
        have hq' : test_use_fake S (q ++ [c.1]) = false := by
          simpa using htuf
        have hS' : (q ++ [c.1]) ∉ S := by
          intro hmem
          rw [tuf_snoc, if_pos hmem] at hq'
          simp at hq'
        have fact1 : noBlock S q (q ++ [c.1]) := by
          intro z hz hcon
          obtain ⟨h1, h2, h3⟩ := hcon
          have hzl : q.length < z.length := by
            rcases Nat.lt_or_ge q.length z.length with h | h
            · exact h
            · exact absurd (pfxB_eq_of_length h1 h).symm h2
          have hzq : z = q ++ [c.1] := by
            refine pfxB_eq_of_length h3 ?_
            simp only [List.length_append, List.length_cons, List.length_nil]
            omega
          exact hS' (hzq ▸ hz)
        have fact2 : ∀ x' : Partl, pfxB (q ++ [c.1]) x' = true →
            (noBlock S q x' ↔ noBlock S (q ++ [c.1]) x') := by
          intro x' hpx
          constructor
          · intro hnb z hz hcon
            obtain ⟨h1, h2, h3⟩ := hcon
            have hzlen : q.length + 1 ≤ z.length := by
              have := pfxB_length h1
              simpa using this
            refine hnb z hz ⟨pfxB_trans (pfxB_append q [c.1]) h1, ?_, h3⟩
            intro hEq
            rw [hEq] at hzlen
            omega
          · intro hnb z hz hcon
            obtain ⟨h1, h2, h3⟩ := hcon
            by_cases hzq : z = q ++ [c.1]
            · exact hS' (hzq ▸ hz)
            · have hzl : q.length < z.length := by
                rcases Nat.lt_or_ge q.length z.length with h | h
                · exact h
                · exact absurd (pfxB_eq_of_length h1 h).symm h2
              have hp' : pfxB (q ++ [c.1]) z = true := by
                refine pfxB_of_both hpx h3 ?_
                simp only [List.length_append, List.length_cons, List.length_nil]
                omega
              exact hnb z hz ⟨hp', hzq, h3⟩
        rw [copiedList, if_neg htuf, descList]
        simp only [List.cons_append, List.mem_cons, List.mem_append]
        rw [copied_char_tree S x (q ++ [c.1]) c.2 hq',
          copied_char_list S x q cs hq]
        constructor
        · rintro (rfl | ⟨hdesc, hnb'⟩ | ⟨hdesc, hnb⟩)
          · exact ⟨Or.inl rfl, fact1⟩
          · have hpx := (descIn_pfx x (q ++ [c.1]) c.2 hdesc).1
            exact ⟨Or.inr (Or.inl hdesc), (fact2 x hpx).mpr hnb'⟩
          · exact ⟨Or.inr (Or.inr hdesc), hnb⟩
        · rintro ⟨rfl | hdesc | hdesc, hnb⟩
          · exact Or.inl rfl
          · have hpx := (descIn_pfx x (q ++ [c.1]) c.2 hdesc).1
            exact Or.inr (Or.inl ⟨hdesc, (fact2 x hpx).mp hnb⟩)
          · exact Or.inr (Or.inr ⟨hdesc, hnb⟩)

end

/-- **C6** (counterexample).  The claim says the recursive copy "skips
exactly those descendant partials that are already members of S".  Take
`S = {/a/b}` and promote the lower directory `/a` containing `/a/b/c`:
`/a/b/c` is not in `S`, yet it is skipped — `copytree`'s ignore list removes
`/a/b` at the top level and never descends into it. -/
theorem c6_counterexample :
    test_use_fake [["a", "b"]] ["a"] = false ∧
    ¬ (∀ x : Partl,
        x ∈ copiedIn [["a", "b"]] ["a"] (.dir [("b", .dir [("c", .leaf 0)])]) ↔
          (x ∈ descIn ["a"] (.dir [("b", .dir [("c", .leaf 0)])]) ∧
            x ∉ [["a", "b"]])) := by
  refine ⟨by decide, fun hAll => ?_⟩
  have h := (hAll ["a", "b", "c"]).mpr (by decide)
  exact absurd h (by decide)

/-- **C6** (amended).  For a lower-backed directory partial `P` being
promoted, the recursive copy reaches exactly those descendants present in the
lower tree that have no member of `S` on the path from `P` (exclusive) down
to them (inclusive): entire subtrees rooted at already-promoted partials are
skipped, so promoted children keep their promoted (upper) content; everything
else merges into the existing destination. -/
theorem c6_promotion_skip_set (S : List Partl) (q : Partl) (t : FTree)
    (hq : test_use_fake S q = false) (x : Partl) :
    x ∈ copiedIn S q t ↔ (x ∈ descIn q t ∧ noBlock S q x) :=
  copied_char_tree S x q t hq

/-- **C6** (witness): with `S = {/a/b}`, promoting `/a` over the lower tree
`/a/b/c`, instantiated at the descendant `/a/b/c`. -/
theorem c6_witness :
    test_use_fake [["a", "b"]] ["a"] = false ∧
    (["a", "b", "c"] ∈ copiedIn [["a", "b"]] ["a"]
        (.dir [("b", .dir [("c", .leaf 0)])]) ↔
      (["a", "b", "c"] ∈ descIn ["a"] (.dir [("b", .dir [("c", .leaf 0)])]) ∧
        noBlock [["a", "b"]] ["a"] ["a", "b", "c"])) :=
  ⟨by decide,
   c6_promotion_skip_set [["a", "b"]] ["a"] (.dir [("b", .dir [("c", .leaf 0)])])
     (by decide) ["a", "b", "c"]⟩

/-- The basename of a path ending in the component `n` is `n`. -/
theorem basename_concat (a : Partl) (n : String) : basename (a ++ [n]) = n :=
  List.getLastD_concat "" n a

/-- The basename of a resolved child path is the child's name (both the real
and the fake resolution end in the child component). -/
theorem basename_path_ro (C : Cfg) (S : List Partl) (p : Partl) (n : String) :
    basename (path_ro C S (p ++ [n])) = n := by
  unfold path_ro
  split
  · rw [fakePath, ← List.append_assoc]
    exact basename_concat _ n
  · rw [realPath, ← List.append_assoc]
    exact basename_concat _ n

/-- With distinct roots, the fake and real host paths of a partial differ. -/
theorem fake_ne_real (C : Cfg) (p : Partl) (hroots : C.root ≠ C.fakeRoot) :
    fakePath C p ≠ realPath C p := by
  intro hEq
  exact hroots (List.append_cancel_right hEq).symm

/-- Shadow membership alone makes `test_use_fake` true. -/
theorem tuf_of_mem {S : List Partl} {p : Partl} (h : p ∈ S) :
    test_use_fake S p = true := by
  rw [tuf_unfold, if_pos h]

/-- `test_use_fake` is inherited by children. -/
theorem tuf_snoc_true {S : List Partl} {p : Partl} (n : String)
    (h : test_use_fake S p = true) : test_use_fake S (p ++ [n]) = true := by
  rw [tuf_snoc]
  split
  · rfl
  · exact h

/-- **C4.**  Merge soundness of `readdir`: beyond `.` and `..`, the entries
are exactly the names `n` whose read-only resolution `resolve(P/n, false)`
names an existing host entry.  Hypotheses: the two roots differ (they are
distinct directories of the host), `P` resolves to an existing host
directory, and the host listing of that directory is coherent with host
existence. -/
theorem c4_readdir_merge_sound (C : Cfg) (S : List Partl) (H : Host)
    (p : Partl)
    (hroots : C.root ≠ C.fakeRoot)
    (hex : H.hexists (path_ro C S p) = true)
    (hdir : H.isDir (path_ro C S p) = true)
    (hC : listsChildren H (path_ro C S p)) :
    ∃ l, ls_dir C S H p = .ok l ∧
      readdir_fn C S H p = .ok ("." :: ".." :: l) ∧
      ∀ n : String, n ∈ l ↔ H.hexists (path_ro C S (p ++ [n])) = true := by
  by_cases huf : test_use_fake S p = true
  · -- the directory itself is served from the fake side
    have hpath : path_ro C S p = fakePath C p := if_pos huf
    have hls : ls_dir C S H p = .ok (H.listdir (path_ro C S p)) := by
      simp only [ls_dir]
      rw [if_pos hpath.symm]
    refine ⟨_, hls, ?_, ?_⟩
    · unfold readdir_fn
      rw [hls]
      rfl
    · intro n
      have htufn : test_use_fake S (p ++ [n]) = true := tuf_snoc_true n huf
      have hpn : path_ro C S (p ++ [n]) = path_ro C S p ++ [n] := by
        unfold path_ro
        rw [if_pos htufn, if_pos huf]
        simp [fakePath, List.append_assoc]
      rw [hpn]
      exact hC n
  · -- the directory is lower-backed: the merging branch
    have huf' : test_use_fake S p = false := by simpa using huf
    have hpath : path_ro C S p = realPath C p := by
      rw [path_ro, huf']
      simp
    have hne : ¬ (fakePath C p = path_ro C S p) := by
      rw [hpath]
      exact fake_ne_real C p hroots
    have hls : ls_dir C S H p =
        .ok (((((H.listdir (path_ro C S p)).map (fun i => p ++ [i])).map
            (fun i => path_ro C S i) ++
            (S.filter (fun i => dirname i = p)).map (fakePath C)).filter
            (fun i => H.hexists i)).map basename).dedup := by
      simp only [ls_dir]
      rw [if_neg hne, if_neg (fun hc => hc hex), if_neg (fun hc => hc hdir)]
    refine ⟨_, hls, ?_, ?_⟩
    · unfold readdir_fn
      rw [hls]
      rfl
    · intro n
      rw [List.mem_dedup, List.mem_map]
      constructor
      · rintro ⟨f, hf, rfl⟩
        rw [List.mem_filter] at hf
        obtain ⟨hfmem, hfex⟩ := hf
        rw [List.mem_append] at hfmem
        rcases hfmem with hf1 | hf1
        · rw [List.mem_map] at hf1
          obtain ⟨pp, hpp, rfl⟩ := hf1
          rw [List.mem_map] at hpp
          obtain ⟨i, hi, rfl⟩ := hpp
          rw [basename_path_ro]
          exact hfex
        · rw [List.mem_map] at hf1
          obtain ⟨q, hq, rfl⟩ := hf1
          rw [List.mem_filter] at hq
          obtain ⟨hqS, hqd⟩ := hq
          have hqd' : dirname q = p := by simpa using hqd
          have hqne : q ≠ [] := by
            intro hEq
            have hp0 : p = [] := by
              rw [← hqd', hEq]
              rfl
            rw [hEq] at hqS
            rw [hp0, tuf_of_mem hqS] at huf'
            simp at huf'
          have hq_eq : p ++ [q.getLast hqne] = q := by
            rw [← hqd']
            exact List.dropLast_append_getLast hqne
          have hbn : basename (fakePath C q) = q.getLast hqne := by
            conv_lhs => rw [fakePath, ← hq_eq]
            rw [← List.append_assoc]
            exact basename_concat _ _
          rw [hbn, hq_eq, path_ro, if_pos (tuf_of_mem hqS)]
          exact hfex
      · intro hexn
        by_cases hmem : (p ++ [n]) ∈ S
        · refine ⟨fakePath C (p ++ [n]), ?_, ?_⟩
          · rw [List.mem_filter]
            constructor
            · rw [List.mem_append]
              right
              rw [List.mem_map]
              refine ⟨p ++ [n], ?_, rfl⟩
              rw [List.mem_filter]
              refine ⟨hmem, ?_⟩
              simp [dirname, List.dropLast_concat]
            · have hfk : path_ro C S (p ++ [n]) = fakePath C (p ++ [n]) := by
                rw [path_ro, if_pos (tuf_of_mem hmem)]
              rw [← hfk]
              exact hexn
          · rw [fakePath, ← List.append_assoc]
            exact basename_concat _ n
        · have htufn : test_use_fake S (p ++ [n]) = false := by
            rw [tuf_snoc, if_neg hmem]
            exact huf'
          have hpn : path_ro C S (p ++ [n]) = realPath C (p ++ [n]) := by
            rw [path_ro, htufn]
            simp
          have hlist : n ∈ H.listdir (path_ro C S p) := by
            apply (hC n).mpr
            rw [hpath]
            have hr : realPath C p ++ [n] = realPath C (p ++ [n]) := by
              rw [realPath, realPath, List.append_assoc]
            rw [hr, ← hpn]
            exact hexn
          refine ⟨path_ro C S (p ++ [n]), ?_, basename_path_ro C S p n⟩
          rw [List.mem_filter]
          refine ⟨?_, hexn⟩
          rw [List.mem_append]
          left
          rw [List.mem_map]
          refine ⟨p ++ [n], ?_, rfl⟩
          rw [List.mem_map]
          exact ⟨n, hlist, rfl⟩

/-- **C4** (witness): the root directory of a fresh mount whose lower tree is
the empty directory `/r` (host: only `/r` exists, it is a directory, and it
lists nothing). -/
theorem c4_witness :
    sampleCfg.root ≠ sampleCfg.fakeRoot ∧
    listsChildren
      ⟨fun q => decide (q = ["r"]), fun q => decide (q = ["r"]), fun _ => []⟩
      (path_ro sampleCfg [] []) ∧
    ∃ l, ls_dir sampleCfg []
        ⟨fun q => decide (q = ["r"]), fun q => decide (q = ["r"]), fun _ => []⟩
        [] = .ok l ∧
      readdir_fn sampleCfg []
        ⟨fun q => decide (q = ["r"]), fun q => decide (q = ["r"]), fun _ => []⟩
        [] = .ok ("." :: ".." :: l) ∧
      ∀ n : String, n ∈ l ↔
        (⟨fun q => decide (q = ["r"]), fun q => decide (q = ["r"]),
          fun _ => []⟩ : Host).hexists
            (path_ro sampleCfg [] ([] ++ [n])) = true := by
  have hC : listsChildren
      ⟨fun q => decide (q = ["r"]), fun q => decide (q = ["r"]), fun _ => []⟩
      (path_ro sampleCfg [] []) := by
    intro n
    show n ∈ ([] : List String) ↔ _
    simp [path_ro, test_use_fake, tufGo, sampleCfg, realPath]
  exact ⟨by decide, hC,
    c4_readdir_merge_sound sampleCfg [] _ [] (by decide) (by decide) (by decide)
      hC⟩

end LayerFS
